import Mathlib

/-!
Verification of the Markdown-to-Word conversion engine (`src/app.py`).

The source is a Python Streamlit application; its Markdown engine consists of
  * `convert_latex_to_unicode` (the math transliterator),
  * `extract_and_format_text`  (the character-level inline formatter),
  * `parse_table`              (the pipe-table parser),
  * `parse_markdown_to_docx`   (the line-oriented block parser).

This file embeds those functions shallowly.  Python strings are embedded as
`List Char` (a Python string is a sequence of code points).  The docx side
effects (`paragraph.add_run`, `doc.add_paragraph`, fonts, colors) are
abstracted into the `Span` / `Block` data model the specification describes:
a call to `add_run` with a given style becomes a `Span` value and each
block-level `doc.add_*` call becomes a `Block` value, in the same order as
the source emits them.

Scanning loops of the source advance an integer cursor; they are embedded as
structural recursion on an explicit fuel parameter initialised to the input
length.  The fuel is an upper bound on the number of loop iterations: every
iteration of every source loop advances its cursor by at least one (proved
below as `fmtStep_idx_lt` / `parseStep_idx_lt`), so initial fuel equal to the
input length never runs out early and the embedding computes exactly the
source's fixpoint.
-/

set_option maxRecDepth 100000

namespace MdToWord

/-! ### Python string primitives -/

/-- Whitespace stripped by Python's `str.strip()` / matched by `\s`
(restricted to the ASCII range; the claims never exercise non-ASCII
whitespace). -/
def isPySpace (c : Char) : Bool :=
  c = ' ' || c = '\t' || c = '\n' || c = '\r' || c = Char.ofNat 11 || c = Char.ofNat 12

/-- Python `str.strip()`: remove leading and trailing whitespace. -/
def pyStrip (s : List Char) : List Char :=
  ((s.dropWhile isPySpace).reverse.dropWhile isPySpace).reverse

/-- The backtick character (written via its code point). -/
def btk : Char := Char.ofNat 96

/-- Python `s.replace(old, new)` (all occurrences, leftmost first,
non-overlapping, the replacement is not rescanned), by recursion on fuel.
Each step consumes at least one character of `s` when `pat ≠ []`, so fuel
`s.length` is exact. -/
def replaceAllFuel (pat rep : List Char) : Nat → List Char → List Char
  | 0, s => s
  | fuel + 1, s =>
    if pat ≠ [] ∧ pat.isPrefixOf s then
      rep ++ replaceAllFuel pat rep fuel (s.drop pat.length)
    else
      match s with
      | [] => []
      | c :: rest => c :: replaceAllFuel pat rep fuel rest

def replaceAll (pat rep s : List Char) : List Char :=
  replaceAllFuel pat rep s.length s

/-- Python `s.replace(c, '', 1)`: delete the first occurrence of `c`. -/
def replaceFirst (c : Char) : List Char → List Char
  | [] => []
  | a :: rest => if a = c then rest else a :: replaceFirst c rest

/-- Python `s.find(pat, start)` restricted to the suffix: scan the suffix
`s`, counting absolute positions from `k`. -/
def findSubFrom (pat : List Char) : List Char → Nat → Option Nat
  | [], k => if pat = [] then some k else none
  | c :: rest, k =>
    if pat.isPrefixOf (c :: rest) then some k else findSubFrom pat rest (k + 1)

/-- Python `text.find(pat, start)`, returning `none` for `-1`. -/
def findSub (text pat : List Char) (start : Nat) : Option Nat :=
  if start ≤ text.length then findSubFrom pat (text.drop start) start else none

/-- Python `text[a:b]` for `a ≤ b` (empty when `b ≤ a`, clipped at the end). -/
def sliceList (text : List Char) (a b : Nat) : List Char :=
  (text.drop a).take (b - a)

/-- Python `s.split(sep)` for a one-character separator. -/
def splitOnChar (sep : Char) : List Char → List (List Char)
  | [] => [[]]
  | c :: rest =>
    match splitOnChar sep rest with
    | [] => [[]]
    | cur :: more => if c = sep then [] :: cur :: more else (c :: cur) :: more

/-! ### The math transliterator (`convert_latex_to_unicode`, app.py 143-255) -/

/-- The "commands that don't affect display" removals and spacing
replacements, app.py lines 149-154, in source order. -/
def preRemovals : List (List Char × List Char) :=
  [("\\text\x7b".data, []), ("\\mathrm\x7b".data, []), ("\\mathbf\x7b".data, []),
   ("\\hat\x7b".data, []), ("\\bar\x7b".data, []), ("\\tilde\x7b".data, []),
   ("\\boxed\x7b".data, []), ("\\left".data, []), ("\\right".data, []),
   ("\\begin\x7baligned\x7d".data, []), ("\\end\x7baligned\x7d".data, []),
   ("\\,".data, " ".data), ("\\;".data, " ".data), ("\\:".data, " ".data),
   ("\\quad".data, "  ".data), ("\\qquad".data, "    ".data)]

/-- The symbol lookup table, app.py lines 160-206, in Python dict insertion
order (the source iterates the dict and applies `str.replace` per entry, so
the order is semantically relevant). -/
def replacements : List (List Char × List Char) :=
  [("\\alpha".data, "α".data), ("\\beta".data, "β".data), ("\\gamma".data, "γ".data), ("\\delta".data, "δ".data),
   ("\\epsilon".data, "ε".data), ("\\varepsilon".data, "ε".data), ("\\zeta".data, "ζ".data), ("\\eta".data, "η".data),
   ("\\theta".data, "θ".data), ("\\vartheta".data, "θ".data), ("\\iota".data, "ι".data), ("\\kappa".data, "κ".data),
   ("\\lambda".data, "λ".data), ("\\mu".data, "μ".data), ("\\nu".data, "ν".data), ("\\xi".data, "ξ".data),
   ("\\pi".data, "π".data), ("\\rho".data, "ρ".data), ("\\sigma".data, "σ".data), ("\\varsigma".data, "ς".data),
   ("\\tau".data, "τ".data), ("\\upsilon".data, "υ".data), ("\\phi".data, "φ".data), ("\\varphi".data, "φ".data),
   ("\\chi".data, "χ".data), ("\\psi".data, "ψ".data), ("\\omega".data, "ω".data),
   ("\\Alpha".data, "Α".data), ("\\Beta".data, "Β".data), ("\\Gamma".data, "Γ".data), ("\\Delta".data, "Δ".data),
   ("\\Epsilon".data, "Ε".data), ("\\Zeta".data, "Ζ".data), ("\\Eta".data, "Η".data), ("\\Theta".data, "Θ".data),
   ("\\Iota".data, "Ι".data), ("\\Kappa".data, "Κ".data), ("\\Lambda".data, "Λ".data), ("\\Mu".data, "Μ".data),
   ("\\Nu".data, "Ν".data), ("\\Xi".data, "Ξ".data), ("\\Pi".data, "Π".data), ("\\Rho".data, "Ρ".data),
   ("\\Sigma".data, "Σ".data), ("\\Tau".data, "Τ".data), ("\\Upsilon".data, "Υ".data), ("\\Phi".data, "Φ".data),
   ("\\Chi".data, "Χ".data), ("\\Psi".data, "Ψ".data), ("\\Omega".data, "Ω".data),
   ("\\times".data, "×".data), ("\\div".data, "÷".data), ("\\pm".data, "±".data), ("\\mp".data, "∓".data),
   ("\\cdot".data, "·".data), ("\\ast".data, "∗".data), ("\\star".data, "⋆".data),
   ("\\leq".data, "≤".data), ("\\geq".data, "≥".data), ("\\neq".data, "≠".data), ("\\ne".data, "≠".data),
   ("\\approx".data, "≈".data), ("\\equiv".data, "≡".data), ("\\sim".data, "∼".data), ("\\simeq".data, "≃".data),
   ("\\propto".data, "∝".data), ("\\ll".data, "≪".data), ("\\gg".data, "≫".data),
   ("\\rightarrow".data, "→".data), ("\\to".data, "→".data), ("\\leftarrow".data, "←".data),
   ("\\leftrightarrow".data, "↔".data), ("\\Rightarrow".data, "⇒".data),
   ("\\Leftarrow".data, "⇐".data), ("\\Leftrightarrow".data, "⇔".data),
   ("\\uparrow".data, "↑".data), ("\\downarrow".data, "↓".data),
   ("\\in".data, "∈".data), ("\\notin".data, "∉".data), ("\\ni".data, "∋".data),
   ("\\subset".data, "⊂".data), ("\\supset".data, "⊃".data), ("\\subseteq".data, "⊆".data), ("\\supseteq".data, "⊇".data),
   ("\\cup".data, "∪".data), ("\\cap".data, "∩".data), ("\\emptyset".data, "∅".data), ("\\varnothing".data, "∅".data),
   ("\\infty".data, "∞".data), ("\\forall".data, "∀".data), ("\\exists".data, "∃".data),
   ("\\int".data, "∫".data), ("\\iint".data, "∬".data), ("\\iiint".data, "∭".data), ("\\oint".data, "∮".data),
   ("\\sum".data, "∑".data), ("\\prod".data, "∏".data),
   ("\\partial".data, "∂".data), ("\\nabla".data, "∇".data),
   ("\\hbar".data, "ℏ".data), ("\\ell".data, "ℓ".data), ("\\wp".data, "℘".data),
   ("\\Re".data, "ℜ".data), ("\\Im".data, "ℑ".data),
   ("\\aleph".data, "ℵ".data), ("\\beth".data, "ℶ".data),
   ("\\sqrt".data, "√".data), ("\\angle".data, "∠".data), ("\\degree".data, "°".data),
   ("\\circ".data, "∘".data), ("\\bullet".data, "•".data),
   ("\\langle".data, "⟨".data), ("\\rangle".data, "⟩".data),
   ("\\\x7b".data, "\x7b".data), ("\\\x7d".data, "\x7d".data)]

/-- Apply a list of `str.replace` substitutions in order (the source's
`for latex, unicode_char in replacements.items()` loop). -/
def applyPairs (ps : List (List Char × List Char)) (s : List Char) : List Char :=
  ps.foldl (fun acc p => replaceAll p.1 p.2 acc) s

/-- App.py lines 157-158: `while result.count('}') > result.count('{'):
result = result.replace('}', '', 1)`.  Each iteration removes one `}`, so
fuel `s.count '}'` is exact. -/
def stripExcessFuel : Nat → List Char → List Char
  | 0, s => s
  | fuel + 1, s =>
    if s.count '\x7d' > s.count '\x7b' then stripExcessFuel fuel (replaceFirst '\x7d' s)
    else s

def stripExcessBraces (s : List Char) : List Char :=
  stripExcessFuel (s.count '\x7d') s

/-- The superscript character map of `convert_superscript` (app.py 221-226);
unmapped characters pass through unchanged. -/
def supMap (c : Char) : Char :=
  if c = '0' then '⁰' else if c = '1' then '¹' else if c = '2' then '²'
  else if c = '3' then '³' else if c = '4' then '⁴' else if c = '5' then '⁵'
  else if c = '6' then '⁶' else if c = '7' then '⁷' else if c = '8' then '⁸'
  else if c = '9' then '⁹' else if c = '+' then '⁺' else if c = '-' then '⁻'
  else if c = '=' then '⁼' else if c = '(' then '⁽' else if c = ')' then '⁾'
  else if c = 'n' then 'ⁿ' else if c = 'i' then 'ⁱ' else c

/-- The subscript character map of `convert_subscript` (app.py 235-242). -/
def subMap (c : Char) : Char :=
  if c = '0' then '₀' else if c = '1' then '₁' else if c = '2' then '₂'
  else if c = '3' then '₃' else if c = '4' then '₄' else if c = '5' then '₅'
  else if c = '6' then '₆' else if c = '7' then '₇' else if c = '8' then '₈'
  else if c = '9' then '₉' else if c = '+' then '₊' else if c = '-' then '₋'
  else if c = '=' then '₌' else if c = '(' then '₍' else if c = ')' then '₎'
  else if c = 'a' then 'ₐ' else if c = 'e' then 'ₑ' else if c = 'o' then 'ₒ'
  else if c = 'x' then 'ₓ' else if c = 'h' then 'ₕ' else if c = 'k' then 'ₖ'
  else if c = 'l' then 'ₗ' else if c = 'm' then 'ₘ' else if c = 'n' then 'ₙ'
  else if c = 'p' then 'ₚ' else if c = 's' then 'ₛ' else if c = 't' then 'ₜ'
  else c

/-- `re.sub(r'√\{([^}]+)\}', r'√(\1)', s)` (app.py 212): left-to-right,
non-overlapping, replacements not rescanned; on a failed match the regex
engine advances one character. -/
def subSqrtFuel : Nat → List Char → List Char
  | 0, s => s
  | fuel + 1, s =>
    match s with
    | '√' :: '\x7b' :: rest =>
      let content := rest.takeWhile (· ≠ '\x7d')
      if content ≠ [] ∧ content.length < rest.length then
        '√' :: '(' :: content ++ ')' :: subSqrtFuel fuel (rest.drop (content.length + 1))
      else '√' :: subSqrtFuel fuel ('\x7b' :: rest)
    | c :: rest => c :: subSqrtFuel fuel rest
    | [] => []

def subSqrt (s : List Char) : List Char := subSqrtFuel s.length s

/-- `re.sub(r'\\frac\{([^}]+)\}\{([^}]+)\}', r'(\1)/(\2)', s)` (app.py
215-216).  Both groups stop at the first `}` (nested braces unsupported). -/
def subFracFuel : Nat → List Char → List Char
  | 0, s => s
  | fuel + 1, s =>
    match s with
    | '\\' :: 'f' :: 'r' :: 'a' :: 'c' :: '\x7b' :: rest =>
      let a := rest.takeWhile (· ≠ '\x7d')
      if a ≠ [] ∧ a.length < rest.length then
        match rest.drop (a.length + 1) with
        | '\x7b' :: rest2 =>
          let b := rest2.takeWhile (· ≠ '\x7d')
          if b ≠ [] ∧ b.length < rest2.length then
            '(' :: a ++ ')' :: '/' :: '(' :: b ++ ')' :: subFracFuel fuel (rest2.drop (b.length + 1))
          else '\\' :: subFracFuel fuel ('f' :: 'r' :: 'a' :: 'c' :: '\x7b' :: rest)
        | _ => '\\' :: subFracFuel fuel ('f' :: 'r' :: 'a' :: 'c' :: '\x7b' :: rest)
      else '\\' :: subFracFuel fuel ('f' :: 'r' :: 'a' :: 'c' :: '\x7b' :: rest)
    | c :: rest => c :: subFracFuel fuel rest
    | [] => []

def subFrac (s : List Char) : List Char := subFracFuel s.length s

/-- `re.sub(r'\^\{([^}]+)\}', convert_superscript, s)` (app.py 229). -/
def subSupBracesFuel : Nat → List Char → List Char
  | 0, s => s
  | fuel + 1, s =>
    match s with
    | '^' :: '\x7b' :: rest =>
      let content := rest.takeWhile (· ≠ '\x7d')
      if content ≠ [] ∧ content.length < rest.length then
        content.map supMap ++ subSupBracesFuel fuel (rest.drop (content.length + 1))
      else '^' :: subSupBracesFuel fuel ('\x7b' :: rest)
    | c :: rest => c :: subSupBracesFuel fuel rest
    | [] => []

def subSupBraces (s : List Char) : List Char := subSupBracesFuel s.length s

/-- `re.sub(r'\^(\d)', convert_superscript, s)` (app.py 230); `\d` modelled
for the ASCII digits, the only digits the claims exercise. -/
def subSupDigitFuel : Nat → List Char → List Char
  | 0, s => s
  | fuel + 1, s =>
    match s with
    | '^' :: d :: rest =>
      if d.isDigit then supMap d :: subSupDigitFuel fuel rest
      else '^' :: subSupDigitFuel fuel (d :: rest)
    | c :: rest => c :: subSupDigitFuel fuel rest
    | [] => []

def subSupDigit (s : List Char) : List Char := subSupDigitFuel s.length s

/-- `re.sub(r'_\{([^}]+)\}', convert_subscript, s)` (app.py 245). -/
def subSubBracesFuel : Nat → List Char → List Char
  | 0, s => s
  | fuel + 1, s =>
    match s with
    | '_' :: '\x7b' :: rest =>
      let content := rest.takeWhile (· ≠ '\x7d')
      if content ≠ [] ∧ content.length < rest.length then
        content.map subMap ++ subSubBracesFuel fuel (rest.drop (content.length + 1))
      else '_' :: subSubBracesFuel fuel ('\x7b' :: rest)
    | c :: rest => c :: subSubBracesFuel fuel rest
    | [] => []

def subSubBraces (s : List Char) : List Char := subSubBracesFuel s.length s

/-- `re.sub(r'_(\d)', convert_subscript, s)` (app.py 246). -/
def subSubDigitFuel : Nat → List Char → List Char
  | 0, s => s
  | fuel + 1, s =>
    match s with
    | '_' :: d :: rest =>
      if d.isDigit then subMap d :: subSubDigitFuel fuel rest
      else '_' :: subSubDigitFuel fuel (d :: rest)
    | c :: rest => c :: subSubDigitFuel fuel rest
    | [] => []

def subSubDigit (s : List Char) : List Char := subSubDigitFuel s.length s

/-- `re.sub(r'\\[a-zA-Z]+', '', s)` (app.py 252): delete a backslash
followed by a maximal nonempty run of ASCII letters. -/
def stripCommandsFuel : Nat → List Char → List Char
  | 0, s => s
  | fuel + 1, s =>
    match s with
    | '\\' :: rest =>
      let letters := rest.takeWhile Char.isAlpha
      if letters ≠ [] then stripCommandsFuel fuel (rest.drop letters.length)
      else '\\' :: stripCommandsFuel fuel rest
    | c :: rest => c :: stripCommandsFuel fuel rest
    | [] => []

def stripCommands (s : List Char) : List Char := stripCommandsFuel s.length s

/-- `convert_latex_to_unicode` (app.py 143-255), steps in source order. -/
def convert_latex_to_unicode (latex_text : List Char) : List Char :=
  let r := applyPairs preRemovals latex_text
  let r := stripExcessBraces r
  let r := applyPairs replacements r
  let r := subSqrt r
  let r := subFrac r
  let r := subSupBraces r
  let r := subSupDigit r
  let r := subSubBraces r
  let r := subSubDigit r
  let r := replaceAll ['\x7b'] [] r
  let r := replaceAll ['\x7d'] [] r
  let r := stripCommands r
  let r := replaceAll ['\\'] [] r
  pyStrip r

/-! ### The inline formatter (`extract_and_format_text`, app.py 257-378)

The source mutates a docx paragraph by appending runs; each `add_run` call
becomes one `Span` value carrying the style the run receives (plain / bold /
italic / code font / math font).  Math spans store the transliterated
content, as the specification's data model prescribes (the docx run
additionally pads display math with newlines and inline math with spaces;
that padding is presentation, not span content). -/

inductive Span where
  | Plain : List Char → Span
  | Bold : List Char → Span
  | Italic : List Char → Span
  | Code : List Char → Span
  | InlineMath : List Char → Span
  | DisplayMath : List Char → Span
deriving Repr, DecidableEq

/-- Flush of the `current_text` accumulator: `if current_text:
paragraph.add_run(current_text)`.  An empty accumulator adds no run. -/
def flushRuns (runs : List Span) (cur : List Char) : List Span :=
  if cur = [] then runs else runs ++ [Span.Plain cur]

/-- The inner `while end < len(text)` scan of the italic branch (app.py
341-351): find the next `*` that is not adjacent to another `*`.  `prev` is
the character before the current scan position. -/
def italicCloseFrom (prev : Char) : List Char → Nat → Option Nat
  | [], _ => none
  | c :: rest, k =>
    if c = '*' ∧ (rest = [] ∨ rest.headD ' ' ≠ '*') ∧ (k = 0 ∨ prev ≠ '*') then some k
    else italicCloseFrom c rest (k + 1)

/-- Search for the closing single `*` from absolute position `e` (the
source starts the scan at `end = i + 1`, so the character before the scan
start is `text[i]`). -/
def italicClose (text : List Char) (e : Nat) : Option Nat :=
  italicCloseFrom (text.getD (e - 1) ' ') (text.drop e) e

/-- State of the character scan of `extract_and_format_text`: the cursor
`i`, the `current_text` accumulator and the runs appended so far. -/
structure ScanState where
  i : Nat
  cur : List Char
  runs : List Span
deriving Repr, DecidableEq

/-- One iteration of the `while i < len(text)` loop of
`extract_and_format_text` (app.py 267-373).  The source tests each pattern
with a `processed` flag; the tests are mutually exclusive on the characters
at the cursor, so they are rendered as an if-chain.  In every branch that
recognises an opening delimiter the accumulator is flushed *before* the
closing delimiter is searched for; when the search fails the source falls
through to the plain-character case, which appends `text[i]` to the (now
empty) accumulator — those fall-throughs are written out explicitly
below. -/
def fmtStep (pm : Bool) (text : List Char) (i : Nat) (cur : List Char) (runs : List Span) :
    ScanState :=
  if pm ∧ (text.drop i).take 2 = ['\\', '['] then
    match findSub text ['\\', ']'] (i + 2) with
    | some e =>
      ⟨e + 2, [],
        flushRuns runs cur ++
          [Span.DisplayMath (convert_latex_to_unicode (pyStrip (sliceList text (i + 2) e)))]⟩
    | none =>
      -- no closing `\]`: after the flush, no later branch matches a
      -- backslash, so `\` joins the fresh plain accumulation
      ⟨i + 1, [text.getD i ' '], flushRuns runs cur⟩
  else if pm ∧ (text.drop i).take 2 = ['\\', '('] then
    match findSub text ['\\', ')'] (i + 2) with
    | some e =>
      ⟨e + 2, [],
        flushRuns runs cur ++
          [Span.InlineMath (convert_latex_to_unicode (pyStrip (sliceList text (i + 2) e)))]⟩
    | none => ⟨i + 1, [text.getD i ' '], flushRuns runs cur⟩
  else if (text.drop i).take 2 = ['*', '*'] then
    match findSub text ['*', '*'] (i + 2) with
    | some e =>
      if i + 2 < e then
        ⟨e + 2, [], flushRuns runs cur ++ [Span.Bold (sliceList text (i + 2) e)]⟩
      else
        -- `end == i + 2`: the empty bold match is rejected; the italic
        -- branch is skipped because `text[i+1] == '*'`, so `*` goes plain
        ⟨i + 1, [text.getD i ' '], flushRuns runs cur⟩
    | none => ⟨i + 1, [text.getD i ' '], flushRuns runs cur⟩
  else if text.getD i ' ' = '*' ∧ (i = 0 ∨ text.getD (i - 1) ' ' ≠ '*') ∧
      (i + 1 ≥ text.length ∨ text.getD (i + 1) ' ' ≠ '*') then
    match italicClose text (i + 1) with
    | some e =>
      if i + 1 < e then
        ⟨e + 1, [], flushRuns runs cur ++ [Span.Italic (sliceList text (i + 1) e)]⟩
      else
        -- closing star with empty content: the source breaks without
        -- processing and the `*` goes plain (unreachable in fact, since the
        -- opening adjacency test excludes `text[i+1] == '*'`)
        ⟨i + 1, [text.getD i ' '], flushRuns runs cur⟩
    | none => ⟨i + 1, [text.getD i ' '], flushRuns runs cur⟩
  else if text.getD i ' ' = btk then
    match findSub text [btk] (i + 1) with
    | some e => ⟨e + 1, [], flushRuns runs cur ++ [Span.Code (sliceList text (i + 1) e)]⟩
    | none => ⟨i + 1, [text.getD i ' '], flushRuns runs cur⟩
  else
    ⟨i + 1, cur ++ [text.getD i ' '], runs⟩

/-- The `while i < len(text)` loop, by recursion on fuel; fuel
`text.length` is exact because every `fmtStep` advances the cursor
(`fmtStep_idx_lt` below). -/
def fmtGo (pm : Bool) (text : List Char) : Nat → Nat → List Char → List Span → List Span
  | 0, _, cur, runs => flushRuns runs cur
  | fuel + 1, i, cur, runs =>
    if i < text.length then
      let s := fmtStep pm text i cur runs
      fmtGo pm text fuel s.i s.cur s.runs
    else flushRuns runs cur

/-- `extract_and_format_text` (app.py 257-378) as a pure function from a
line of text to the list of spans it appends. -/
def extract_and_format_text (pm : Bool) (text : List Char) : List Span :=
  fmtGo pm text text.length 0 [] []

/-! ### The table parser (`parse_table`, app.py 119-141) -/

/-- `[cell.strip() for cell in line.split('|') if cell.strip()]`:
split on `|`, strip each cell, keep only cells that are nonempty after
stripping (Python truthiness of the stripped string). -/
def splitCells (line : List Char) : List (List Char) :=
  ((splitOnChar '|' line).map pyStrip).filter (· ≠ [])

/-- The collection loop of `parse_table` (app.py 121-126): the contiguous
run of pipe-containing lines starting at `start_idx`. -/
def tableLinesAt (lines : List (List Char)) (start_idx : Nat) : List (List Char) :=
  (lines.drop start_idx).takeWhile (fun l => l.contains '|')

/-- `parse_table(lines, start_idx)` (app.py 119-141): collect the contiguous
pipe-containing lines, require at least two, take the first as header, skip
the second (separator) unconditionally, and keep each later line's nonempty
cell list as a row. -/
def parse_table (lines : List (List Char)) (start_idx : Nat) :
    Option (List (List Char) × List (List (List Char))) × Nat :=
  if (tableLinesAt lines start_idx).length < 2 then (none, start_idx)
  else
    (some (splitCells ((tableLinesAt lines start_idx).headD []),
        ((tableLinesAt lines start_idx).drop 2).filterMap
          (fun line => if splitCells line = [] then none else some (splitCells line))),
      start_idx + (tableLinesAt lines start_idx).length)

/-! ### The block parser (`parse_markdown_to_docx`, app.py 380-525)

Each `doc.add_*` call becomes a `Block` value: the extra empty paragraphs
the source inserts around tables and after lists become `Blank` blocks, the
`'_' * 50` horizontal-rule paragraph becomes `Rule`, and the code-block
paragraph becomes `CodeBlock` carrying the buffered lines verbatim. -/

inductive Block where
  | Heading : Nat → List Span → Block
  | Paragraph : List Span → Block
  | ListItem : Bool → List Span → Block
  | CodeBlock : List (List Char) → Block
  | Table : List (List Char) → List (List (List Char)) → Block
  | Rule : Block
  | Blank : Block
deriving Repr, DecidableEq

/-- The mutable loop state of `parse_markdown_to_docx`: the
`in_code_block` flag, the `code_lines` buffer and the `in_list` flag. -/
structure ParseState where
  in_code_block : Bool
  code_lines : List (List Char)
  in_list : Bool
deriving Repr, DecidableEq

/-- Result of one iteration of the line loop. -/
structure PStep where
  i : Nat
  st : ParseState
  acc : List Block
deriving Repr, DecidableEq

/-- `matchNumItem (line.strip())` models `re.match(r'^\d+\.\s', ...)` /
`re.sub(r'^\d+\.\s', '', ...)`: one or more digits, a dot, one whitespace
character; returns the text after the matched prefix.  (`\d`/`\s` modelled
on the ASCII range, the only characters the claims exercise.) -/
def matchNumItem (l : List Char) : Option (List Char) :=
  match l.dropWhile Char.isDigit with
  | '.' :: w :: rest =>
    if l.takeWhile Char.isDigit ≠ [] ∧ isPySpace w then some rest else none
  | _ => none

/-- The per-line classification of `parse_markdown_to_docx` after the table
check (app.py 445-521): code fences, code-block content, horizontal rule,
headings, bullet and numbered list items, paragraphs, blank lines.  Every
branch ends with `i += 1`. -/
def parseClassify (pm : Bool) (i : Nat) (st : ParseState) (acc : List Block)
    (line : List Char) : PStep :=
  if "```".data.isPrefixOf (pyStrip line) then
    if st.in_code_block then
      ⟨i + 1, ⟨false, [], st.in_list⟩, acc ++ [Block.CodeBlock st.code_lines]⟩
    else ⟨i + 1, ⟨true, st.code_lines, st.in_list⟩, acc⟩
  else if st.in_code_block then
    ⟨i + 1, ⟨true, st.code_lines ++ [line], st.in_list⟩, acc⟩
  else if pyStrip line = "---".data then
    ⟨i + 1, st, acc ++ [Block.Rule]⟩
  else if "# ".data.isPrefixOf line ∧ ¬ "## ".data.isPrefixOf line then
    ⟨i + 1, st, acc ++ [Block.Heading 1 (extract_and_format_text pm (line.drop 2))]⟩
  else if "## ".data.isPrefixOf line ∧ ¬ "### ".data.isPrefixOf line then
    ⟨i + 1, st, acc ++ [Block.Heading 2 (extract_and_format_text pm (line.drop 3))]⟩
  else if "### ".data.isPrefixOf line then
    ⟨i + 1, st, acc ++ [Block.Heading 3 (extract_and_format_text pm (line.drop 4))]⟩
  else if "- ".data.isPrefixOf (pyStrip line) ∨ "* ".data.isPrefixOf (pyStrip line) then
    ⟨i + 1, ⟨st.in_code_block, st.code_lines, true⟩,
      acc ++ [Block.ListItem false (extract_and_format_text pm ((pyStrip line).drop 2))]⟩
  else
    match matchNumItem (pyStrip line) with
    | some restText =>
      ⟨i + 1, ⟨st.in_code_block, st.code_lines, true⟩,
        acc ++ [Block.ListItem true (extract_and_format_text pm restText)]⟩
    | none =>
      if pyStrip line ≠ [] then
        if st.in_list then
          ⟨i + 1, ⟨st.in_code_block, st.code_lines, false⟩,
            acc ++ [Block.Blank, Block.Paragraph (extract_and_format_text pm line)]⟩
        else ⟨i + 1, st, acc ++ [Block.Paragraph (extract_and_format_text pm line)]⟩
      else
        if st.in_list then ⟨i + 1, st, acc⟩
        else ⟨i + 1, st, acc ++ [Block.Blank]⟩

/-- One iteration of the `while i < len(lines)` loop (app.py 408-523).  The
table check comes first — before the code-fence check, and regardless of
`in_code_block`: when the current and next line both contain `|`,
`parse_table` consumes the block (app.py 412-442, with its surrounding
empty paragraphs); only if it returns `None` does the iteration fall
through to the per-line classification. -/
def parseStep (pm : Bool) (lines : List (List Char)) (i : Nat) (st : ParseState)
    (acc : List Block) : PStep :=
  if (lines.getD i []).contains '|' ∧ i + 1 < lines.length ∧
      (lines.getD (i + 1) []).contains '|' then
    match parse_table lines i with
    | (some (hs, rs), e) => ⟨e, st, acc ++ [Block.Blank, Block.Table hs rs, Block.Blank]⟩
    | (none, _) => parseClassify pm i st acc (lines.getD i [])
  else parseClassify pm i st acc (lines.getD i [])

/-- The line loop, by recursion on fuel; fuel `lines.length` is exact
because every `parseStep` advances the cursor (`parseStep_idx_lt` below).
An unclosed code block at the end of input is discarded, as in the
source. -/
def parseLoop (pm : Bool) (lines : List (List Char)) :
    Nat → Nat → ParseState → List Block → List Block
  | 0, _, _, acc => acc
  | fuel + 1, i, st, acc =>
    if i < lines.length then
      let s := parseStep pm lines i st acc
      parseLoop pm lines fuel s.i s.st s.acc
    else acc

/-- The display-math pre-pass (app.py 389-400): every `\[ ... \]` region
(non-greedy, dot matching newline) has its embedded newlines replaced by
spaces, so the line-based scan never sees a display-math block split across
lines. -/
def collapseFuel : Nat → List Char → List Char
  | 0, s => s
  | fuel + 1, s =>
    if ['\\', '['].isPrefixOf s then
      match findSubFrom ['\\', ']'] (s.drop 2) 2 with
      | some k =>
        ((s.take (k + 2)).map (fun c => if c = '\n' then ' ' else c)) ++
          collapseFuel fuel (s.drop (k + 2))
      | none =>
        match s with
        | [] => []
        | c :: rest => c :: collapseFuel fuel rest
    else
      match s with
      | [] => []
      | c :: rest => c :: collapseFuel fuel rest

def collapseDisplayMath (s : List Char) : List Char := collapseFuel s.length s

/-- `parse_markdown_to_docx` (app.py 380-525) restricted to its Markdown
engine: the pre-pass, the line split, and the block loop.  (The document
title, fonts, colors and serialization are docx presentation outside the
block/span model.) -/
def parse_markdown_to_docx (pm : Bool) (markdown_text : List Char) : List Block :=
  let t := if pm then collapseDisplayMath markdown_text else markdown_text
  let lines := splitOnChar '\n' t
  parseLoop pm lines lines.length 0 ⟨false, [], false⟩ []

/-! ### Positions returned by the search helpers -/

theorem findSubFrom_ge (pat : List Char) :
    ∀ (s : List Char) (k e : Nat), findSubFrom pat s k = some e → k ≤ e := by
  intro s
  induction s with
  | nil =>
    intro k e h
    simp only [findSubFrom] at h
    split at h
    · injection h with h; omega
    · exact absurd h (by simp)
  | cons c rest ih =>
    intro k e h
    simp only [findSubFrom] at h
    split at h
    · injection h with h; omega
    · exact Nat.le_of_succ_le (ih (k + 1) e h)

theorem findSub_ge (text pat : List Char) (start e : Nat)
    (h : findSub text pat start = some e) : start ≤ e := by
  unfold findSub at h
  by_cases hs : start ≤ text.length
  · simp only [hs, if_true] at h
    exact findSubFrom_ge pat _ start e h
  · simp [hs] at h

theorem italicCloseFrom_ge :
    ∀ (s : List Char) (prev : Char) (k e : Nat), italicCloseFrom prev s k = some e → k ≤ e := by
  intro s
  induction s with
  | nil => intro prev k e h; simp [italicCloseFrom] at h
  | cons c rest ih =>
    intro prev k e h
    simp only [italicCloseFrom] at h
    split at h
    · injection h with h; omega
    · exact Nat.le_of_succ_le (ih c (k + 1) e h)

theorem italicClose_ge (text : List Char) (k e : Nat) (h : italicClose text k = some e) :
    k ≤ e :=
  italicCloseFrom_ge _ _ k e h

/-! ### Every scan step advances its cursor (claim C8 and the fuel bound) -/

set_option maxHeartbeats 1000000 in
theorem fmtStep_idx_lt (pm : Bool) (text : List Char) (i : Nat) (cur : List Char)
    (runs : List Span) : i < (fmtStep pm text i cur runs).i := by
  rcases h1 : findSub text ['\\', ']'] (i + 2) with _ | e1
  all_goals try have g1 := findSub_ge text ['\\', ']'] (i + 2) e1 h1
  all_goals rcases h2 : findSub text ['\\', ')'] (i + 2) with _ | e2
  all_goals try have g2 := findSub_ge text ['\\', ')'] (i + 2) e2 h2
  all_goals rcases h3 : findSub text ['*', '*'] (i + 2) with _ | e3
  all_goals try have g3 := findSub_ge text ['*', '*'] (i + 2) e3 h3
  all_goals rcases h4 : italicClose text (i + 1) with _ | e4
  all_goals try have g4 := italicClose_ge text (i + 1) e4 h4
  all_goals rcases h5 : findSub text [btk] (i + 1) with _ | e5
  all_goals try have g5 := findSub_ge text [btk] (i + 1) e5 h5
  all_goals simp only [fmtStep, h1, h2, h3, h4, h5]
  all_goals repeat' split
  all_goals try simp
  all_goals omega

theorem parse_table_some_ge (lines : List (List Char)) (i : Nat)
    (td : List (List Char) × List (List (List Char))) (e : Nat)
    (h : parse_table lines i = (some td, e)) : i + 2 ≤ e := by
  unfold parse_table at h
  split at h
  · exact absurd h (by simp)
  next hl =>
    simp only [Prod.mk.injEq] at h
    omega

theorem parseClassify_idx (pm : Bool) (i : Nat) (st : ParseState) (acc : List Block)
    (line : List Char) : (parseClassify pm i st acc line).i = i + 1 := by
  unfold parseClassify
  repeat' split <;> try rfl

theorem parseStep_idx_lt (pm : Bool) (lines : List (List Char)) (i : Nat)
    (st : ParseState) (acc : List Block) : i < (parseStep pm lines i st acc).i := by
  unfold parseStep
  split
  · split
    next hs rs e heq =>
      have := parse_table_some_ge lines i (hs, rs) e heq
      simp; omega
    next heq => rw [parseClassify_idx]; omega
  · rw [parseClassify_idx]; omega

/-- Claim C8: for every input string and configuration a conversion
terminates — the character cursor of the inline-formatter scan and the line
cursor of the block-parser scan each strictly increase on every loop
iteration, so the work is bounded by the input size (fuel equal to the
input length is exact in `fmtGo` / `parseLoop`). -/
theorem C8_scan_advances :
    (∀ (pm : Bool) (text : List Char) (i : Nat) (cur : List Char) (runs : List Span),
      i < (fmtStep pm text i cur runs).i) ∧
    (∀ (pm : Bool) (lines : List (List Char)) (i : Nat) (st : ParseState)
      (acc : List Block), i < (parseStep pm lines i st acc).i) :=
  ⟨fmtStep_idx_lt, parseStep_idx_lt⟩

/-! ### Decomposition of the scanned text at search results -/

theorem drop_getD_cons {α : Type _} : ∀ (l : List α) (i : Nat), i < l.length →
    ∀ (d : α), l.drop i = l.getD i d :: l.drop (i + 1)
  | [], i, h, _ => absurd h (by simp)
  | _ :: _, 0, _, _ => rfl
  | c :: rest, i + 1, h, d => by
    simp only [List.drop_succ_cons, List.getD_cons_succ]
    exact drop_getD_cons rest i (by simpa using h) d

theorem drop_take2_decomp (text : List Char) (i : Nat) (a b : Char)
    (h : (text.drop i).take 2 = [a, b]) :
    text.drop i = a :: b :: text.drop (i + 2) := by
  have h1 : text.drop i = (text.drop i).take 2 ++ (text.drop i).drop 2 :=
    (List.take_append_drop 2 _).symm
  have h2 : (text.drop i).drop 2 = text.drop (i + 2) := List.drop_drop 2 i text
  rw [h, h2] at h1
  simpa using h1

theorem drop_slice_decomp (text : List Char) (a b : Nat) (hab : a ≤ b) :
    text.drop a = sliceList text a b ++ text.drop b := by
  unfold sliceList
  have h1 : (text.drop a).drop (b - a) = text.drop b := by
    rw [List.drop_drop]; congr 1; omega
  conv_lhs => rw [← List.take_append_drop (b - a) (text.drop a)]
  rw [h1]

theorem findSubFrom_isPrefixOf (pat : List Char) :
    ∀ (s : List Char) (k e : Nat), findSubFrom pat s k = some e →
      pat.isPrefixOf (s.drop (e - k)) := by
  intro s
  induction s with
  | nil =>
    intro k e h
    simp only [findSubFrom] at h
    split at h
    next hp => injection h with h; subst h; simp [hp]
    · exact absurd h (by simp)
  | cons c rest ih =>
    intro k e h
    simp only [findSubFrom] at h
    split at h
    next hp => injection h with h; subst h; simpa using hp
    next hp =>
      have hge := findSubFrom_ge pat rest (k + 1) e h
      have hih := ih (k + 1) e h
      have heq : e - k = (e - (k + 1)) + 1 := by omega
      rw [heq]
      simpa using hih

/-- A successful `text.find(pat, start)` splits the text at the match. -/
theorem findSub_decomp (text pat : List Char) (start e : Nat)
    (h : findSub text pat start = some e) :
    text.drop e = pat ++ text.drop (e + pat.length) := by
  unfold findSub at h
  split at h
  next hs =>
    have hge := findSubFrom_ge pat (text.drop start) start e h
    have hp := findSubFrom_isPrefixOf pat (text.drop start) start e h
    have h2 : (text.drop start).drop (e - start) = text.drop e := by
      rw [List.drop_drop]; congr 1; omega
    rw [h2] at hp
    rcases List.isPrefixOf_iff_prefix.mp hp with ⟨t, ht⟩
    have h3 : text.drop (e + pat.length) = t := by
      have h4 : text.drop (e + pat.length) = (text.drop e).drop pat.length :=
        (List.drop_drop pat.length e text).symm
      rw [h4, ← ht, List.drop_left]
    rw [← ht, h3]
  · exact absurd h (by simp)

theorem italicCloseFrom_star :
    ∀ (s : List Char) (prev : Char) (k e : Nat), italicCloseFrom prev s k = some e →
      s.drop (e - k) = '*' :: s.drop (e - k + 1) := by
  intro s
  induction s with
  | nil => intro prev k e h; simp [italicCloseFrom] at h
  | cons c rest ih =>
    intro prev k e h
    simp only [italicCloseFrom] at h
    split at h
    next hc =>
      injection h with h; subst h
      simp only [Nat.sub_self]
      rw [hc.1]
      simp
    next =>
      have hge := italicCloseFrom_ge rest c (k + 1) e h
      have hih := ih c (k + 1) e h
      have h1 : e - k = (e - (k + 1)) + 1 := by omega
      rw [h1]
      simpa using hih

/-- A successful italic-closing scan splits the text at the found star. -/
theorem italicClose_decomp (text : List Char) (k e : Nat) (h : italicClose text k = some e) :
    text.drop e = '*' :: text.drop (e + 1) := by
  unfold italicClose at h
  have hge := italicCloseFrom_ge (text.drop k) _ k e h
  have hst := italicCloseFrom_star (text.drop k) _ k e h
  have h1 : (text.drop k).drop (e - k) = text.drop e := by
    rw [List.drop_drop]; congr 1; omega
  have h2 : (text.drop k).drop (e - k + 1) = text.drop (e + 1) := by
    rw [List.drop_drop]; congr 1; omega
  rw [h1, h2] at hst
  exact hst

/-! ### Reconstruction of a line from its spans (claims C3 and C2) -/

/-- Re-insert the markup delimiters of a span according to its style tag. -/
def spanUnparse : Span → List Char
  | Span.Plain s => s
  | Span.Bold s => '*' :: '*' :: s ++ ['*', '*']
  | Span.Italic s => '*' :: s ++ ['*']
  | Span.Code s => btk :: s ++ [btk]
  | Span.InlineMath s => '\\' :: '(' :: s ++ ['\\', ')']
  | Span.DisplayMath s => '\\' :: '[' :: s ++ ['\\', ']']

/-- Concatenation of all spans with their delimiters re-inserted. -/
def unparse (spans : List Span) : List Char := (spans.map spanUnparse).flatten

theorem unparse_append (a b : List Span) : unparse (a ++ b) = unparse a ++ unparse b := by
  simp [unparse]

theorem unparse_flushRuns (runs : List Span) (cur : List Char) :
    unparse (flushRuns runs cur) = unparse runs ++ cur := by
  unfold flushRuns
  split
  next h => simp [h]
  next => simp [unparse_append, unparse, spanUnparse]

/-- With math preservation disabled, one scan step preserves the
reconstructed text: spans already emitted (delimiters re-inserted), plus the
plain accumulator, plus the unscanned suffix. -/
theorem fmtStep_unparse (text : List Char) (i : Nat) (cur : List Char) (runs : List Span)
    (hi : i < text.length) :
    unparse (fmtStep false text i cur runs).runs ++ (fmtStep false text i cur runs).cur ++
        text.drop (fmtStep false text i cur runs).i =
      unparse runs ++ cur ++ text.drop i := by
  have hm1 : ¬((false = true) ∧ (text.drop i).take 2 = ['\\', '[']) := by simp
  have hm2 : ¬((false = true) ∧ (text.drop i).take 2 = ['\\', '(']) := by simp
  have hcons : ∀ d : Char, text.getD i ' ' = d → text.drop i = d :: text.drop (i + 1) := by
    intro d hd
    rw [drop_getD_cons text i hi ' ', hd]
  by_cases hC : (text.drop i).take 2 = ['*', '*']
  · have hd2 : text.drop i = '*' :: '*' :: text.drop (i + 2) := drop_take2_decomp text i _ _ hC
    have hg : text.getD i ' ' = '*' := by
      have hh := drop_getD_cons text i hi ' '
      rw [hd2] at hh
      injection hh with h1 _
      exact h1.symm
    rcases h3 : findSub text ['*', '*'] (i + 2) with _ | e
    · simp only [fmtStep, if_neg hm1, if_neg hm2, if_pos hC, h3]
      rw [unparse_flushRuns, hg, hcons '*' hg]
      simp
    · have hge : i + 2 ≤ e := findSub_ge text ['*', '*'] (i + 2) e h3
      have hdec := findSub_decomp text ['*', '*'] (i + 2) e h3
      by_cases hlt : i + 2 < e
      · simp only [fmtStep, if_neg hm1, if_neg hm2, if_pos hC, h3, if_pos hlt]
        rw [unparse_append, unparse_flushRuns]
        conv_rhs => rw [hd2, drop_slice_decomp text (i + 2) e (Nat.le_of_lt hlt), hdec]
        simp [unparse, spanUnparse]
      · simp only [fmtStep, if_neg hm1, if_neg hm2, if_pos hC, h3, if_neg hlt]
        rw [unparse_flushRuns, hg, hcons '*' hg]
        simp
  · by_cases hD : text.getD i ' ' = '*' ∧ (i = 0 ∨ text.getD (i - 1) ' ' ≠ '*') ∧
        (i + 1 ≥ text.length ∨ text.getD (i + 1) ' ' ≠ '*')
    · rcases h4 : italicClose text (i + 1) with _ | e
      · simp only [fmtStep, if_neg hm1, if_neg hm2, if_neg hC, if_pos hD, h4]
        rw [unparse_flushRuns, hD.1, hcons '*' hD.1]
        simp
      · have hge : i + 1 ≤ e := italicClose_ge text (i + 1) e h4
        have hdec := italicClose_decomp text (i + 1) e h4
        by_cases hlt : i + 1 < e
        · simp only [fmtStep, if_neg hm1, if_neg hm2, if_neg hC, if_pos hD, h4, if_pos hlt]
          rw [unparse_append, unparse_flushRuns]
          conv_rhs => rw [hcons '*' hD.1, drop_slice_decomp text (i + 1) e (Nat.le_of_lt hlt), hdec]
          simp [unparse, spanUnparse]
        · simp only [fmtStep, if_neg hm1, if_neg hm2, if_neg hC, if_pos hD, h4, if_neg hlt]
          rw [unparse_flushRuns, hD.1, hcons '*' hD.1]
          simp
    · by_cases hF : text.getD i ' ' = btk
      · rcases h5 : findSub text [btk] (i + 1) with _ | e
        · simp only [fmtStep, if_neg hm1, if_neg hm2, if_neg hC, if_neg hD, if_pos hF, h5]
          rw [unparse_flushRuns, hF, hcons btk hF]
          simp
        · have hge : i + 1 ≤ e := findSub_ge text [btk] (i + 1) e h5
          have hdec := findSub_decomp text [btk] (i + 1) e h5
          simp only [fmtStep, if_neg hm1, if_neg hm2, if_neg hC, if_neg hD, if_pos hF, h5]
          rw [unparse_append, unparse_flushRuns]
          conv_rhs => rw [hcons btk hF, drop_slice_decomp text (i + 1) e hge, hdec]
          simp [unparse, spanUnparse]
      · simp only [fmtStep, if_neg hm1, if_neg hm2, if_neg hC, if_neg hD, if_neg hF]
        rw [hcons (text.getD i ' ') rfl]
        simp

/-- With math preservation disabled and sufficient fuel, the scan loop's
output reconstructs the emitted spans, the accumulator and the remaining
suffix. -/
theorem fmtGo_unparse (text : List Char) :
    ∀ (fuel i : Nat) (cur : List Char) (runs : List Span),
      text.length ≤ fuel + i →
      unparse (fmtGo false text fuel i cur runs) = unparse runs ++ cur ++ text.drop i := by
  intro fuel
  induction fuel with
  | zero =>
    intro i cur runs hf
    simp only [fmtGo]
    rw [List.drop_of_length_le (by omega), unparse_flushRuns]
    simp
  | succ fuel ih =>
    intro i cur runs hf
    simp only [fmtGo]
    by_cases hi : i < text.length
    · rw [if_pos hi]
      have hadv := fmtStep_idx_lt false text i cur runs
      rw [ih _ _ _ (by omega)]
      have hstep := fmtStep_unparse text i cur runs hi
      simpa [List.append_assoc] using hstep
    · rw [if_neg hi]
      rw [List.drop_of_length_le (by omega), unparse_flushRuns]
      simp

/-- Claim C3 (amended): with math preservation disabled, concatenating the
texts of all spans produced for one source line, with each span's markup
delimiters re-inserted according to its style tag, reconstructs exactly the
original line. -/
theorem C3_roundtrip_no_math (text : List Char) :
    unparse (extract_and_format_text false text) = text := by
  unfold extract_and_format_text
  rw [fmtGo_unparse text text.length 0 [] [] (by omega)]
  simp [unparse]

/-- Claim C3 fails as stated when math preservation is enabled: for the line
`\( a \)` the math content is whitespace-stripped before being stored, so
re-inserting the `\(`/`\)` delimiters yields `\(a\)`, not the original
line. -/
theorem C3_counterexample :
    extract_and_format_text true "\\( a \\)".data = [Span.InlineMath ['a']] ∧
      unparse (extract_and_format_text true "\\( a \\)".data) ≠ "\\( a \\)".data := by
  constructor
  · decide
  · decide

/-- Claim C10 fails as stated: the formatter does not produce a single
`Plain "****"` span for the input `****`. -/
theorem C10_counterexample :
    extract_and_format_text false "****".data ≠ [Span.Plain "****".data] := by
  decide

/-- Claim C10 (amended): for the input `****` the empty bold match (`**`
immediately followed by `**`) is rejected rather than emitted as an empty
`Bold` span, and all four asterisks fall through to plain content — but as
three `Plain` spans `*`, `*`, `**`, because the accumulator is flushed
before each failed bold match, not as a single `Plain "****"` span. -/
theorem C10_four_asterisks :
    extract_and_format_text false "****".data =
      [Span.Plain ['*'], Span.Plain ['*'], Span.Plain ['*', '*']] := by
  decide

/-! ### Unmatched opening delimiters (claim C2) -/

/-- The inline formatter's cursor stands on an opening delimiter (`\[`,
`\(`, `**`, a qualifying single `*`, or a backtick) whose closing
counterpart does not occur before the end of the line. -/
def unmatchedOpenAt (pm : Bool) (text : List Char) (i : Nat) : Prop :=
  (pm = true ∧ (text.drop i).take 2 = ['\\', '['] ∧ findSub text ['\\', ']'] (i + 2) = none) ∨
  (pm = true ∧ (text.drop i).take 2 = ['\\', '('] ∧ findSub text ['\\', ')'] (i + 2) = none) ∨
  ((text.drop i).take 2 = ['*', '*'] ∧ findSub text ['*', '*'] (i + 2) = none) ∨
  (text.getD i ' ' = '*' ∧ (text.drop i).take 2 ≠ ['*', '*'] ∧
    (i = 0 ∨ text.getD (i - 1) ' ' ≠ '*') ∧
    (i + 1 ≥ text.length ∨ text.getD (i + 1) ' ' ≠ '*') ∧
    italicClose text (i + 1) = none) ∨
  (text.getD i ' ' = btk ∧ findSub text [btk] (i + 1) = none)

instance (pm : Bool) (text : List Char) (i : Nat) : Decidable (unmatchedOpenAt pm text i) := by
  unfold unmatchedOpenAt
  infer_instance

theorem getD_lt_length {text : List Char} {i : Nat} {c : Char}
    (hc : text.getD i ' ' = c) (hne : c ≠ ' ') : i < text.length := by
  by_contra hn
  push_neg at hn
  rw [List.getD_eq_default _ _ hn] at hc
  exact hne hc.symm

theorem take2_head {text : List Char} {i : Nat} (hlen : i < text.length) :
    (text.drop i).take 2 = text.getD i ' ' :: (text.drop (i + 1)).take 1 := by
  rw [drop_getD_cons text i hlen ' ']
  rfl

/-- Claim C2: whenever the inline formatter meets an opening delimiter whose
closing counterpart does not occur before the end of the line, the step
flushes the pending plain text and appends the delimiter character itself to
the (fresh) plain accumulator — the delimiter is emitted literally as plain
content, the cursor advances by one, and no error can arise (the embedding
is a total function). -/
theorem C2_unmatched_delimiter_literal (pm : Bool) (text : List Char) (i : Nat)
    (cur : List Char) (runs : List Span) (h : unmatchedOpenAt pm text i) :
    fmtStep pm text i cur runs = ⟨i + 1, [text.getD i ' '], flushRuns runs cur⟩ := by
  rcases h with ⟨hpm, h2, hn⟩ | ⟨hpm, h2, hn⟩ | ⟨h2, hn⟩ | ⟨hc, hne, ha1, ha2, hn⟩ | ⟨hc, hn⟩
  · subst hpm
    simp only [fmtStep]
    rw [if_pos (show True ∧ (text.drop i).take 2 = ['\\', '['] from ⟨trivial, h2⟩), hn]
  · subst hpm
    simp only [fmtStep]
    rw [if_neg (show ¬(True ∧ (text.drop i).take 2 = ['\\', '[']) by simp [h2]),
      if_pos (show True ∧ (text.drop i).take 2 = ['\\', '('] from ⟨trivial, h2⟩), hn]
  · simp only [fmtStep]
    rw [if_neg (show ¬(pm = true ∧ (text.drop i).take 2 = ['\\', '[']) by simp [h2]),
      if_neg (show ¬(pm = true ∧ (text.drop i).take 2 = ['\\', '(']) by simp [h2]),
      if_pos h2, hn]
  · have hlen : i < text.length := getD_lt_length hc (by decide)
    have htake := take2_head hlen
    rw [hc] at htake
    simp only [fmtStep]
    rw [if_neg (show ¬(pm = true ∧ (text.drop i).take 2 = ['\\', '[']) by simp [htake]),
      if_neg (show ¬(pm = true ∧ (text.drop i).take 2 = ['\\', '(']) by simp [htake]),
      if_neg hne, if_pos (And.intro hc (And.intro ha1 ha2)), hn]
  · have hlen : i < text.length := getD_lt_length hc (by decide)
    have htake := take2_head hlen
    rw [hc] at htake
    simp only [fmtStep]
    rw [if_neg (show ¬(pm = true ∧ (text.drop i).take 2 = ['\\', '[']) by simp [htake, btk]),
      if_neg (show ¬(pm = true ∧ (text.drop i).take 2 = ['\\', '(']) by simp [htake, btk]),
      if_neg (show ¬((text.drop i).take 2 = ['*', '*']) by simp [htake, btk]),
      if_neg (show ¬(text.getD i ' ' = '*' ∧ (i = 0 ∨ text.getD (i - 1) ' ' ≠ '*') ∧
          (i + 1 ≥ text.length ∨ text.getD (i + 1) ' ' ≠ '*')) from
        fun hcon => absurd (hc.symm.trans hcon.1) (by decide)),
      if_pos hc, hn]

/-- Witness for claim C2 at the concrete line `**ab` (an unmatched bold
opener at position 0, with pending plain text `x`). -/
theorem C2_witness :
    unmatchedOpenAt false "**ab".data 0 ∧
      fmtStep false "**ab".data 0 ['x'] [] = ⟨1, ['*'], [Span.Plain ['x']]⟩ :=
  ⟨by decide, by
    have h := C2_unmatched_delimiter_literal false "**ab".data 0 ['x'] [] (by decide)
    exact h⟩

/-! ### Identity and deletion lemmas for the transliterator's passes -/

/-- `str.replace` is the identity when the first pattern character does not
occur in the string. -/
theorem replaceAllFuel_not_mem_head (c : Char) (p' rep : List Char) :
    ∀ (fuel : Nat) (t : List Char), c ∉ t → replaceAllFuel (c :: p') rep fuel t = t := by
  intro fuel
  induction fuel with
  | zero => intro t _; rfl
  | succ fuel ih =>
    intro t hmem
    cases t with
    | nil => simp [replaceAllFuel]
    | cons a rest =>
      have hne : ¬((c :: p') ≠ [] ∧ (c :: p').isPrefixOf (a :: rest) = true) := by
        rintro ⟨-, hp⟩
        rcases List.isPrefixOf_iff_prefix.mp hp with ⟨t2, ht2⟩
        injection ht2 with h1 _
        rw [h1] at hmem
        exact hmem (List.mem_cons_self a rest)
      have h1 : replaceAllFuel (c :: p') rep (fuel + 1) (a :: rest) =
          a :: replaceAllFuel (c :: p') rep fuel rest := by
        simp only [replaceAllFuel, if_neg hne]
      rw [h1, ih rest (fun hm => hmem (List.mem_cons_of_mem a hm))]

theorem replaceAll_not_mem_head (c : Char) (p' rep s : List Char) (h : c ∉ s) :
    replaceAll (c :: p') rep s = s :=
  replaceAllFuel_not_mem_head c p' rep s.length s h

/-- `s.replace(c, '')` removes every occurrence of `c` (given enough
fuel, which `replaceAll` supplies). -/
theorem replaceAllFuel_single_removes (c : Char) :
    ∀ (fuel : Nat) (t : List Char), t.length ≤ fuel → c ∉ replaceAllFuel [c] [] fuel t := by
  intro fuel
  induction fuel with
  | zero =>
    intro t ht
    have h0 : t = [] := List.length_eq_zero.mp (Nat.le_zero.mp ht)
    subst h0
    simp [replaceAllFuel]
  | succ fuel ih =>
    intro t ht
    cases t with
    | nil => simp [replaceAllFuel]
    | cons a rest =>
      by_cases hac : a = c
      · subst hac
        have h1 : replaceAllFuel [a] [] (fuel + 1) (a :: rest) =
            replaceAllFuel [a] [] fuel rest := by
          simp [replaceAllFuel, List.isPrefixOf]
        rw [h1]
        exact ih rest (by simpa using ht)
      · have h1 : replaceAllFuel [c] [] (fuel + 1) (a :: rest) =
            a :: replaceAllFuel [c] [] fuel rest := by
          simp [replaceAllFuel, List.isPrefixOf, Ne.symm hac]
        rw [h1]
        intro hmem
        rcases List.mem_cons.mp hmem with h | h
        · exact hac h.symm
        · exact ih rest (by simpa using ht) h

theorem replaceAll_single_removes (c : Char) (s : List Char) :
    c ∉ replaceAll [c] [] s :=
  replaceAllFuel_single_removes c s.length s (Nat.le_refl _)

/-- Replacing by the empty string only deletes characters. -/
theorem replaceAllFuel_nil_sublist (pat : List Char) :
    ∀ (fuel : Nat) (t : List Char), (replaceAllFuel pat [] fuel t).Sublist t := by
  intro fuel
  induction fuel with
  | zero => intro t; exact List.Sublist.refl t
  | succ fuel ih =>
    intro t
    simp only [replaceAllFuel]
    split
    · exact ((ih _).trans (List.drop_sublist _ _)).trans (List.Sublist.refl t)
    · cases t with
      | nil => exact List.Sublist.refl []
      | cons a rest => exact (ih rest).cons₂ a

theorem replaceAll_nil_sublist (pat s : List Char) : (replaceAll pat [] s).Sublist s :=
  replaceAllFuel_nil_sublist pat s.length s

/-- `re.sub(r'\\[a-zA-Z]+', '', s)` only deletes characters. -/
theorem stripCommandsFuel_sublist :
    ∀ (fuel : Nat) (t : List Char), (stripCommandsFuel fuel t).Sublist t := by
  intro fuel
  induction fuel with
  | zero => intro t; exact List.Sublist.refl t
  | succ fuel ih =>
    intro t
    cases t with
    | nil => exact List.Sublist.refl _
    | cons a rest =>
      by_cases ha : a = '\\'
      · subst ha
        simp only [stripCommandsFuel]
        split
        · exact ((ih _).trans (List.drop_sublist _ _)).cons _
        · exact (ih rest).cons₂ _
      · have h1 : stripCommandsFuel (fuel + 1) (a :: rest) =
            a :: stripCommandsFuel fuel rest := by
          simp [stripCommandsFuel, ha]
        rw [h1]
        exact (ih rest).cons₂ a

theorem stripCommands_sublist (s : List Char) : (stripCommands s).Sublist s :=
  stripCommandsFuel_sublist s.length s

theorem stripCommandsFuel_id :
    ∀ (fuel : Nat) (s : List Char), '\\' ∉ s → stripCommandsFuel fuel s = s := by
  intro fuel
  induction fuel with
  | zero => intro s _; rfl
  | succ fuel ih =>
    intro s hs
    cases s with
    | nil => rfl
    | cons a rest =>
      have ha : a ≠ '\\' := by rintro rfl; exact hs (List.mem_cons_self _ _)
      have h1 : stripCommandsFuel (fuel + 1) (a :: rest) =
          a :: stripCommandsFuel fuel rest := by
        simp [stripCommandsFuel, ha]
      rw [h1, ih rest (fun hm => hs (List.mem_cons_of_mem a hm))]

theorem stripCommands_id (s : List Char) (h : '\\' ∉ s) : stripCommands s = s :=
  stripCommandsFuel_id s.length s h

/-- `str.strip` only deletes characters. -/
theorem pyStrip_subset (s : List Char) : pyStrip s ⊆ s := by
  unfold pyStrip
  intro x hx
  rw [List.mem_reverse] at hx
  have h1 := (List.dropWhile_sublist isPySpace).subset hx
  rw [List.mem_reverse] at h1
  exact (List.dropWhile_sublist isPySpace).subset h1

/-- The brace-balancing loop does not run on a string without `}`. -/
theorem stripExcessBraces_id (s : List Char) (h : '\x7d' ∉ s) :
    stripExcessBraces s = s := by
  unfold stripExcessBraces
  rw [List.count_eq_zero.mpr h]
  rfl

/-- The `str.replace` cascade is the identity on a string without
backslashes (every pattern starts with a backslash). -/
theorem applyPairs_bs_id (ps : List (List Char × List Char)) (s : List Char)
    (hps : ∀ p ∈ ps, p.1.take 1 = ['\\']) (hs : '\\' ∉ s) : applyPairs ps s = s := by
  induction ps with
  | nil => rfl
  | cons p ps ih =>
    have hp1 : p.1 = '\\' :: p.1.drop 1 := by
      conv_lhs => rw [← List.take_append_drop 1 p.1]
      rw [hps p (List.mem_cons_self _ _)]
      rfl
    have h1 : replaceAll p.1 p.2 s = s := by
      rw [hp1]
      exact replaceAll_not_mem_head _ _ _ _ hs
    simp only [applyPairs, List.foldl_cons, h1]
    exact ih (fun q hq => hps q (List.mem_cons_of_mem _ hq))

theorem subSqrtFuel_nil (fuel : Nat) : subSqrtFuel fuel [] = [] := by
  cases fuel <;> rfl

theorem subSupBracesFuel_nil (fuel : Nat) : subSupBracesFuel fuel [] = [] := by
  cases fuel <;> rfl

theorem subSupDigitFuel_nil (fuel : Nat) : subSupDigitFuel fuel [] = [] := by
  cases fuel <;> rfl

theorem subSubBracesFuel_nil (fuel : Nat) : subSubBracesFuel fuel [] = [] := by
  cases fuel <;> rfl

theorem subSubDigitFuel_nil (fuel : Nat) : subSubDigitFuel fuel [] = [] := by
  cases fuel <;> rfl

theorem subSqrtFuel_id :
    ∀ (fuel : Nat) (s : List Char), '\x7b' ∉ s → subSqrtFuel fuel s = s := by
  intro fuel
  induction fuel with
  | zero => intro s _; rfl
  | succ fuel ih =>
    intro s hs
    cases s with
    | nil => rfl
    | cons a rest =>
      cases rest with
      | nil => simp [subSqrtFuel, subSqrtFuel_nil]
      | cons b rest2 =>
        have hb : b ≠ '\x7b' := by
          rintro rfl
          exact hs (List.mem_cons_of_mem a (List.mem_cons_self _ _))
        have h1 : subSqrtFuel (fuel + 1) (a :: b :: rest2) =
            a :: subSqrtFuel fuel (b :: rest2) := by
          simp [subSqrtFuel, hb]
        rw [h1, ih _ (fun hm => hs (List.mem_cons_of_mem a hm))]

theorem subFracFuel_id :
    ∀ (fuel : Nat) (s : List Char), '\\' ∉ s → subFracFuel fuel s = s := by
  intro fuel
  induction fuel with
  | zero => intro s _; rfl
  | succ fuel ih =>
    intro s hs
    cases s with
    | nil => rfl
    | cons a rest =>
      have ha : a ≠ '\\' := by rintro rfl; exact hs (List.mem_cons_self _ _)
      have h1 : subFracFuel (fuel + 1) (a :: rest) = a :: subFracFuel fuel rest := by
        simp [subFracFuel, ha]
      rw [h1, ih rest (fun hm => hs (List.mem_cons_of_mem a hm))]

theorem subSupBracesFuel_id :
    ∀ (fuel : Nat) (s : List Char), '^' ∉ s → subSupBracesFuel fuel s = s := by
  intro fuel
  induction fuel with
  | zero => intro s _; rfl
  | succ fuel ih =>
    intro s hs
    cases s with
    | nil => rfl
    | cons a rest =>
      have ha : a ≠ '^' := by rintro rfl; exact hs (List.mem_cons_self _ _)
      have h1 : subSupBracesFuel (fuel + 1) (a :: rest) =
          a :: subSupBracesFuel fuel rest := by
        cases rest with
        | nil => simp [subSupBracesFuel, subSupBracesFuel_nil]
        | cons b rest2 => simp [subSupBracesFuel, ha]
      rw [h1, ih rest (fun hm => hs (List.mem_cons_of_mem a hm))]

theorem subSupDigitFuel_id :
    ∀ (fuel : Nat) (s : List Char), '^' ∉ s → subSupDigitFuel fuel s = s := by
  intro fuel
  induction fuel with
  | zero => intro s _; rfl
  | succ fuel ih =>
    intro s hs
    cases s with
    | nil => rfl
    | cons a rest =>
      have ha : a ≠ '^' := by rintro rfl; exact hs (List.mem_cons_self _ _)
      have h1 : subSupDigitFuel (fuel + 1) (a :: rest) =
          a :: subSupDigitFuel fuel rest := by
        cases rest with
        | nil => simp [subSupDigitFuel, subSupDigitFuel_nil]
        | cons b rest2 => simp [subSupDigitFuel, ha]
      rw [h1, ih rest (fun hm => hs (List.mem_cons_of_mem a hm))]

theorem subSubBracesFuel_id :
    ∀ (fuel : Nat) (s : List Char), '_' ∉ s → subSubBracesFuel fuel s = s := by
  intro fuel
  induction fuel with
  | zero => intro s _; rfl
  | succ fuel ih =>
    intro s hs
    cases s with
    | nil => rfl
    | cons a rest =>
      have ha : a ≠ '_' := by rintro rfl; exact hs (List.mem_cons_self _ _)
      have h1 : subSubBracesFuel (fuel + 1) (a :: rest) =
          a :: subSubBracesFuel fuel rest := by
        cases rest with
        | nil => simp [subSubBracesFuel, subSubBracesFuel_nil]
        | cons b rest2 => simp [subSubBracesFuel, ha]
      rw [h1, ih rest (fun hm => hs (List.mem_cons_of_mem a hm))]

theorem subSubDigitFuel_id :
    ∀ (fuel : Nat) (s : List Char), '_' ∉ s → subSubDigitFuel fuel s = s := by
  intro fuel
  induction fuel with
  | zero => intro s _; rfl
  | succ fuel ih =>
    intro s hs
    cases s with
    | nil => rfl
    | cons a rest =>
      have ha : a ≠ '_' := by rintro rfl; exact hs (List.mem_cons_self _ _)
      have h1 : subSubDigitFuel (fuel + 1) (a :: rest) =
          a :: subSubDigitFuel fuel rest := by
        cases rest with
        | nil => simp [subSubDigitFuel, subSubDigitFuel_nil]
        | cons b rest2 => simp [subSubDigitFuel, ha]
      rw [h1, ih rest (fun hm => hs (List.mem_cons_of_mem a hm))]

theorem subSqrt_id (s : List Char) (h : '\x7b' ∉ s) : subSqrt s = s :=
  subSqrtFuel_id s.length s h

theorem subFrac_id (s : List Char) (h : '\\' ∉ s) : subFrac s = s :=
  subFracFuel_id s.length s h

theorem subSupBraces_id (s : List Char) (h : '^' ∉ s) : subSupBraces s = s :=
  subSupBracesFuel_id s.length s h

theorem subSupDigit_id (s : List Char) (h : '^' ∉ s) : subSupDigit s = s :=
  subSupDigitFuel_id s.length s h

theorem subSubBraces_id (s : List Char) (h : '_' ∉ s) : subSubBraces s = s :=
  subSubBracesFuel_id s.length s h

theorem subSubDigit_id (s : List Char) (h : '_' ∉ s) : subSubDigit s = s :=
  subSubDigitFuel_id s.length s h

/-- The final cleanup steps of the transliterator (app.py 249-255) leave no
brace and no backslash: lines 249 delete every `{` and `}`, line 252 and 253
only delete characters, line 253 deletes every remaining backslash, and
`strip` only deletes characters. -/
theorem cleanup_no_specials (r : List Char) :
    '\x7b' ∉ pyStrip (replaceAll ['\\'] [] (stripCommands (replaceAll ['\x7d'] []
        (replaceAll ['\x7b'] [] r)))) ∧
    '\x7d' ∉ pyStrip (replaceAll ['\\'] [] (stripCommands (replaceAll ['\x7d'] []
        (replaceAll ['\x7b'] [] r)))) ∧
    '\\' ∉ pyStrip (replaceAll ['\\'] [] (stripCommands (replaceAll ['\x7d'] []
        (replaceAll ['\x7b'] [] r)))) := by
  have h1 : '\x7b' ∉ replaceAll ['\x7b'] [] r := replaceAll_single_removes _ _
  have h2l : '\x7b' ∉ replaceAll ['\x7d'] [] (replaceAll ['\x7b'] [] r) :=
    fun hm => h1 ((replaceAll_nil_sublist _ _).subset hm)
  have h2r : '\x7d' ∉ replaceAll ['\x7d'] [] (replaceAll ['\x7b'] [] r) :=
    replaceAll_single_removes _ _
  have h3l : '\x7b' ∉ stripCommands (replaceAll ['\x7d'] [] (replaceAll ['\x7b'] [] r)) :=
    fun hm => h2l ((stripCommands_sublist _).subset hm)
  have h3r : '\x7d' ∉ stripCommands (replaceAll ['\x7d'] [] (replaceAll ['\x7b'] [] r)) :=
    fun hm => h2r ((stripCommands_sublist _).subset hm)
  have h4l : '\x7b' ∉ replaceAll ['\\'] []
      (stripCommands (replaceAll ['\x7d'] [] (replaceAll ['\x7b'] [] r))) :=
    fun hm => h3l ((replaceAll_nil_sublist _ _).subset hm)
  have h4r : '\x7d' ∉ replaceAll ['\\'] []
      (stripCommands (replaceAll ['\x7d'] [] (replaceAll ['\x7b'] [] r))) :=
    fun hm => h3r ((replaceAll_nil_sublist _ _).subset hm)
  have h4b : '\\' ∉ replaceAll ['\\'] []
      (stripCommands (replaceAll ['\x7d'] [] (replaceAll ['\x7b'] [] r))) :=
    replaceAll_single_removes _ _
  exact ⟨fun hm => h4l (pyStrip_subset _ hm), fun hm => h4r (pyStrip_subset _ hm),
    fun hm => h4b (pyStrip_subset _ hm)⟩

/-- Claim C9: for every input string, the string returned by the math
transliterator contains no `{`, no `}` and no backslash. -/
theorem C9_no_braces_no_backslash (s : List Char) :
    '\x7b' ∉ convert_latex_to_unicode s ∧ '\x7d' ∉ convert_latex_to_unicode s ∧
      '\\' ∉ convert_latex_to_unicode s :=
  cleanup_no_specials
    (subSubDigit (subSubBraces (subSupDigit (subSupBraces (subFrac (subSqrt
      (applyPairs replacements (stripExcessBraces (applyPairs preRemovals s)))))))))

/-- Claim C5: the transliterator maps the specification's three reference
examples exactly. -/
theorem C5_reference_examples :
    convert_latex_to_unicode "\\alpha + \\beta".data = "α + β".data ∧
      convert_latex_to_unicode "x^\x7b2\x7d + y_\x7b1\x7d".data = "x² + y₁".data ∧
      convert_latex_to_unicode "\\frac\x7ba\x7d\x7bb\x7d".data = "(a)/(b)".data := by
  refine ⟨by decide, by decide, by decide⟩

/-- Claim C4 fails as stated: `a}` is pure Unicode and contains no
backslash, yet the transliterator's excess-brace loop (app.py 157-158)
deletes the `}`, returning `a`. -/
theorem C4_counterexample :
    '\\' ∉ "a\x7d".data ∧ convert_latex_to_unicode "a\x7d".data = "a".data ∧
      convert_latex_to_unicode "a\x7d".data ≠ "a\x7d".data := by
  refine ⟨by decide, by decide, by decide⟩

/-- Claim C4 (amended): the transliterator is the identity — in particular
idempotent on its own output — on strings that contain no backslash, no
brace, no caret, no underscore, and no leading or trailing whitespace.
(Backslash-freedom alone is not enough: stray `}` are deleted, `^`/`_`
digit forms are rewritten, and the result is whitespace-trimmed.) -/
theorem C4_fixed_point (s : List Char)
    (hbs : '\\' ∉ s) (hlb : '\x7b' ∉ s) (hrb : '\x7d' ∉ s)
    (hcaret : '^' ∉ s) (hus : '_' ∉ s) (hstrip : pyStrip s = s) :
    convert_latex_to_unicode s = s := by
  show pyStrip (replaceAll ['\\'] [] (stripCommands (replaceAll ['\x7d'] []
      (replaceAll ['\x7b'] [] (subSubDigit (subSubBraces (subSupDigit (subSupBraces
        (subFrac (subSqrt (applyPairs replacements (stripExcessBraces
          (applyPairs preRemovals s))))))))))))) = s
  rw [applyPairs_bs_id preRemovals s (by decide) hbs,
    stripExcessBraces_id s hrb,
    applyPairs_bs_id replacements s (by decide) hbs,
    subSqrt_id s hlb,
    subFrac_id s hbs,
    subSupBraces_id s hcaret,
    subSupDigit_id s hcaret,
    subSubBraces_id s hus,
    subSubDigit_id s hus,
    replaceAll_not_mem_head '\x7b' [] [] s hlb,
    replaceAll_not_mem_head '\x7d' [] [] s hrb,
    stripCommands_id s hbs,
    replaceAll_not_mem_head '\\' [] [] s hbs,
    hstrip]

/-- Witness for claim C4 (amended) at the transliterator output `α + β`. -/
theorem C4_witness :
    convert_latex_to_unicode "α + β".data = "α + β".data :=
  C4_fixed_point "α + β".data (by decide) (by decide) (by decide) (by decide)
    (by decide) (by decide)

/-! ### Indexing helpers for the line list -/

theorem getD_append_left {α : Type _} (xs ys : List α) (n : Nat) (d : α)
    (h : n < xs.length) : (xs ++ ys).getD n d = xs.getD n d := by
  induction xs generalizing n with
  | nil => simp at h
  | cons a xs ih =>
    cases n with
    | zero => rfl
    | succ n =>
      rw [List.cons_append, List.getD_cons_succ, List.getD_cons_succ]
      exact ih n (by simpa using h)

theorem getD_append_right {α : Type _} (xs ys : List α) (k : Nat) (d : α) :
    (xs ++ ys).getD (xs.length + k) d = ys.getD k d := by
  induction xs with
  | nil => simp
  | cons a xs ih =>
    have h1 : (a :: xs).length + k = (xs.length + k) + 1 := by
      simp [List.length_cons]; omega
    rw [h1, List.cons_append, List.getD_cons_succ]
    exact ih

theorem take_getD_snoc {α : Type _} (l : List α) (j : Nat) (h : j < l.length) (d : α) :
    l.take j ++ [l.getD j d] = l.take (j + 1) := by
  induction l generalizing j with
  | nil => simp at h
  | cons a l ih =>
    cases j with
    | zero => simp
    | succ j =>
      simp only [List.take_succ_cons, List.getD_cons_succ, List.cons_append, List.cons.injEq,
        true_and]
      exact ih j (by simpa using h)

/-! ### Claim C6: cell filtering in `parse_table` -/

/-- Each cell list produced by the split/strip/filter step contains no empty
cell: whitespace-only cells are discarded wherever they occur. -/
theorem splitCells_no_empty (line : List Char) : [] ∉ splitCells line := by
  intro hm
  have h := (List.mem_filter.mp hm).2
  simp at h

/-- Claim C6 fails as stated: in `| a |  | b |` the interior whitespace-only
cell between the second and third pipe is discarded as well, so the header
list is `[a, b]`, not `[a, "", b]`. -/
theorem C6_counterexample :
    parse_table ["| a |  | b |".data, "|---|---|---|".data, "| 1 | 2 | 3 |".data] 0 =
      (some ([['a'], ['b']], [[['1'], ['2'], ['3']]]), 3) := by
  decide

/-- Claim C6 (amended): the split/trim step of `parse_table` discards every
whitespace-only cell — leading, trailing and interior alike — so no header
cell is empty, and every emitted body row is nonempty and contains no empty
cell. -/
theorem C6_no_empty_cells (lines : List (List Char)) (i : Nat)
    (hs : List (List Char)) (rs : List (List (List Char))) (e : Nat)
    (h : parse_table lines i = (some (hs, rs), e)) :
    [] ∉ hs ∧ ∀ r ∈ rs, r ≠ [] ∧ [] ∉ r := by
  unfold parse_table at h
  split at h
  · exact absurd h (by simp)
  · simp only [Prod.mk.injEq, Option.some.injEq] at h
    obtain ⟨⟨hh, hr⟩, -⟩ := h
    constructor
    · rw [← hh]
      exact splitCells_no_empty _
    · intro r hr2
      rw [← hr] at hr2
      rcases List.mem_filterMap.mp hr2 with ⟨a, _, hfa⟩
      by_cases hca : splitCells a = []
      · rw [if_pos hca] at hfa
        exact absurd hfa (by simp)
      · rw [if_neg hca] at hfa
        injection hfa with hfa
        subst hfa
        exact ⟨hca, splitCells_no_empty a⟩

/-- Witness for claim C6 (amended) at a concrete three-line table. -/
theorem C6_witness :
    [] ∉ [['x'], ['y']] ∧
      ∀ r ∈ [[['1'], ['2']]], r ≠ [] ∧ [] ∉ r := by
  have h := C6_no_empty_cells
    ["| x |  | y |".data, "|---|---|".data, "| 1 | 2 |".data, "|  |".data] 0
    [['x'], ['y']] [[['1'], ['2']]] 4 (by decide)
  exact h

/-! ### Claim C1: the table-start condition of the block parser -/

theorem tableLinesAt_ge_two (lines : List (List Char)) (i : Nat)
    (h1 : (lines.getD i []).contains '|' = true) (h2 : i + 1 < lines.length)
    (h3 : (lines.getD (i + 1) []).contains '|' = true) :
    2 ≤ (tableLinesAt lines i).length := by
  unfold tableLinesAt
  rw [drop_getD_cons lines i (by omega) [], drop_getD_cons lines (i + 1) h2 []]
  have h1m : '|' ∈ lines[i]?.getD [] := by simpa using h1
  have h3m : '|' ∈ lines[i + 1]?.getD [] := by simpa using h3
  simp [List.takeWhile_cons, h1m, h3m]

/-- Claim C1 fails as stated: two consecutive pipe-containing lines whose
second line lacks `---` are consumed as a table (the second line is dropped
as the separator without validation). -/
theorem C1_counterexample :
    parse_markdown_to_docx false "a|b\nc|d".data =
      [Block.Blank, Block.Table [['a'], ['b']] [], Block.Blank] := by
  decide

/-- Claim C1 (amended): the block parser begins a table block under
detection variant (b): a table is consumed exactly when the current line
contains `|` and the immediately following line also contains `|`; no `---`
separator is required. -/
theorem C1_table_start_variant_b (pm : Bool) (lines : List (List Char)) (i : Nat)
    (st : ParseState) (acc : List Block)
    (h1 : (lines.getD i []).contains '|' = true) (h2 : i + 1 < lines.length)
    (h3 : (lines.getD (i + 1) []).contains '|' = true) :
    ∃ hs rs e, parse_table lines i = (some (hs, rs), e) ∧ i + 2 ≤ e ∧
      parseStep pm lines i st acc =
        ⟨e, st, acc ++ [Block.Blank, Block.Table hs rs, Block.Blank]⟩ := by
  have hlen := tableLinesAt_ge_two lines i h1 h2 h3
  have hpt : parse_table lines i = (some (splitCells ((tableLinesAt lines i).headD []),
      ((tableLinesAt lines i).drop 2).filterMap
        (fun line => if splitCells line = [] then none else some (splitCells line))),
      i + (tableLinesAt lines i).length) := by
    unfold parse_table
    rw [if_neg (by omega)]
  refine ⟨_, _, _, hpt, by omega, ?_⟩
  unfold parseStep
  rw [if_pos ⟨h1, h2, h3⟩, hpt]

/-- Witness for claim C1 (amended) at the two lines `a|b` / `c|d`. -/
theorem C1_witness :
    ∃ hs rs e, parse_table ["a|b".data, "c|d".data] 0 = (some (hs, rs), e) ∧ 0 + 2 ≤ e ∧
      parseStep false ["a|b".data, "c|d".data] 0 ⟨false, [], false⟩ [] =
        ⟨e, ⟨false, [], false⟩, [] ++ [Block.Blank, Block.Table hs rs, Block.Blank]⟩ :=
  C1_table_start_variant_b false ["a|b".data, "c|d".data] 0 ⟨false, [], false⟩ []
    (by decide) (by decide) (by decide)

/-! ### Claim C7: code-fence content -/

theorem getD_mem {α : Type _} (l : List α) (n : Nat) (h : n < l.length) (d : α) :
    l.getD n d ∈ l := by
  induction l generalizing n with
  | nil => simp at h
  | cons a l ih =>
    cases n with
    | zero => exact List.mem_cons_self _ _
    | succ n => exact List.mem_cons_of_mem _ (ih n (by simpa using h))

/-- Unfolding one iteration of the line loop. -/
theorem parseLoop_succ_step (pm : Bool) (lines : List (List Char)) (fuel i : Nat)
    (st : ParseState) (acc : List Block) (s : PStep) (hi : i < lines.length)
    (hstep : parseStep pm lines i st acc = s) :
    parseLoop pm lines (fuel + 1) i st acc = parseLoop pm lines fuel s.i s.st s.acc := by
  simp only [parseLoop, if_pos hi, hstep]

/-- A line inside an open code block that triggers neither the table check
nor the fence check is appended verbatim to the buffer. -/
theorem parseStep_in_code (pm : Bool) (lines : List (List Char)) (i : Nat)
    (st : ParseState) (acc : List Block) (hcode : st.in_code_block = true)
    (hcond : ¬((lines.getD i []).contains '|' = true ∧ i + 1 < lines.length ∧
      (lines.getD (i + 1) []).contains '|' = true))
    (hfence : ¬("```".data.isPrefixOf (pyStrip (lines.getD i [])) = true)) :
    parseStep pm lines i st acc =
      ⟨i + 1, ⟨true, st.code_lines ++ [lines.getD i []], st.in_list⟩, acc⟩ := by
  unfold parseStep
  rw [if_neg hcond]
  unfold parseClassify
  rw [if_neg hfence, if_pos hcode]

/-- A fence line met with the code flag set closes the block and emits the
buffered lines. -/
theorem parseStep_close_fence (pm : Bool) (lines : List (List Char)) (i : Nat)
    (st : ParseState) (acc : List Block) (hcode : st.in_code_block = true)
    (hcond : ¬((lines.getD i []).contains '|' = true ∧ i + 1 < lines.length ∧
      (lines.getD (i + 1) []).contains '|' = true))
    (hfence : "```".data.isPrefixOf (pyStrip (lines.getD i [])) = true) :
    parseStep pm lines i st acc =
      ⟨i + 1, ⟨false, [], st.in_list⟩, acc ++ [Block.CodeBlock st.code_lines]⟩ := by
  unfold parseStep
  rw [if_neg hcond]
  unfold parseClassify
  rw [if_pos hfence, if_pos hcode]

/-- A fence line met with the code flag clear opens a code block. -/
theorem parseStep_open_fence (pm : Bool) (lines : List (List Char)) (i : Nat)
    (st : ParseState) (acc : List Block) (hcode : st.in_code_block = false)
    (hcond : ¬((lines.getD i []).contains '|' = true ∧ i + 1 < lines.length ∧
      (lines.getD (i + 1) []).contains '|' = true))
    (hfence : "```".data.isPrefixOf (pyStrip (lines.getD i [])) = true) :
    parseStep pm lines i st acc = ⟨i + 1, ⟨true, st.code_lines, st.in_list⟩, acc⟩ := by
  unfold parseStep
  rw [if_neg hcond]
  unfold parseClassify
  rw [if_pos hfence, if_neg (show ¬(st.in_code_block = true) by simp [hcode])]

theorem fence_line_getD (content rest : List (List Char)) (j : Nat)
    (hj : j < content.length) :
    ("```".data :: content ++ "```".data :: rest).getD (j + 1) [] = content.getD j [] := by
  rw [getD_append_left ("```".data :: content) ("```".data :: rest) (j + 1) []
    (by simp only [List.length_cons]; omega)]
  exact List.getD_cons_succ

theorem fence_close_getD (content rest : List (List Char)) :
    ("```".data :: content ++ "```".data :: rest).getD (content.length + 1) [] =
      "```".data := by
  have h0 := getD_append_right ("```".data :: content) ("```".data :: rest) 0
    ([] : List Char)
  simpa using h0

theorem fence_length (content rest : List (List Char)) :
    ("```".data :: content ++ "```".data :: rest).length =
      content.length + rest.length + 2 := by
  simp [List.length_cons, List.length_append]; omega

/-- Inside a fence whose remaining content lines never put `|` on two
consecutive lines and never look like a fence themselves, the loop buffers
every remaining line verbatim itself, then emits one `CodeBlock` with the
full content at the closing fence. -/
theorem parseLoop_in_code (pm : Bool) (content rest : List (List Char)) (il : Bool)
    (hfence : ∀ l ∈ content, ¬("```".data.isPrefixOf (pyStrip l) = true))
    (hpipes : ∀ k, k + 1 < content.length →
      ¬((content.getD k []).contains '|' = true ∧
        (content.getD (k + 1) []).contains '|' = true)) :
    ∀ (d j : Nat), j + d = content.length → ∀ (fuel : Nat), d + 1 ≤ fuel →
      ∀ (acc : List Block),
      parseLoop pm ("```".data :: content ++ "```".data :: rest) fuel (j + 1)
          ⟨true, content.take j, il⟩ acc =
        parseLoop pm ("```".data :: content ++ "```".data :: rest) (fuel - (d + 1))
          (content.length + 2) ⟨false, [], il⟩ (acc ++ [Block.CodeBlock content]) := by
  have hcondF : ∀ j, j ≤ content.length →
      ¬((("```".data :: content ++ "```".data :: rest).getD (j + 1) []).contains '|' = true ∧
        j + 1 + 1 < ("```".data :: content ++ "```".data :: rest).length ∧
        (("```".data :: content ++ "```".data :: rest).getD (j + 1 + 1) []).contains '|'
          = true) := by
    intro j hj
    rintro ⟨hA, hB, hC⟩
    rcases Nat.lt_or_ge j content.length with hjlt | hjge
    · rw [fence_line_getD content rest j hjlt] at hA
      rcases Nat.lt_or_ge (j + 1) content.length with hj1 | hj1
      · rw [show j + 1 + 1 = (j + 1) + 1 from rfl, fence_line_getD content rest (j + 1) hj1] at hC
        exact hpipes j hj1 ⟨hA, hC⟩
      · have hj1e : j + 1 = content.length := by omega
        rw [show j + 1 + 1 = (j + 1) + 1 from rfl, hj1e, fence_close_getD content rest] at hC
        exact absurd hC (by decide)
    · have hje : j = content.length := by omega
      rw [hje, fence_close_getD content rest] at hA
      exact absurd hA (by decide)
  intro d
  induction d with
  | zero =>
    intro j hj fuel hfuel acc
    have hj' : j = content.length := by omega
    subst hj'
    cases fuel with
    | zero => omega
    | succ f =>
      have hfc : "```".data.isPrefixOf (pyStrip
          (("```".data :: content ++ "```".data :: rest).getD (content.length + 1) []))
          = true := by
        rw [fence_close_getD content rest]
        decide
      rw [List.take_length]
      have hstep := parseStep_close_fence pm ("```".data :: content ++ "```".data :: rest)
        (content.length + 1) ⟨true, content, il⟩ acc rfl
        (hcondF content.length (Nat.le_refl _)) hfc
      rw [parseLoop_succ_step pm ("```".data :: content ++ "```".data :: rest) f
        (content.length + 1) ⟨true, content, il⟩ acc _
        (by rw [fence_length content rest]; omega) hstep]
      have hsub : f + 1 - (0 + 1) = f := by omega
      rw [hsub]
  | succ d ih =>
    intro j hj fuel hfuel acc
    have hjlt : j < content.length := by omega
    cases fuel with
    | zero => omega
    | succ f =>
      have hnf : ¬("```".data.isPrefixOf (pyStrip
          (("```".data :: content ++ "```".data :: rest).getD (j + 1) [])) = true) := by
        rw [fence_line_getD content rest j hjlt]
        exact hfence _ (getD_mem content j hjlt [])
      have hstep := parseStep_in_code pm ("```".data :: content ++ "```".data :: rest)
        (j + 1) ⟨true, content.take j, il⟩ acc rfl (hcondF j (by omega)) hnf
      rw [show (⟨true, content.take j, il⟩ : ParseState).code_lines = content.take j from rfl,
        show (⟨true, content.take j, il⟩ : ParseState).in_list = il from rfl,
        fence_line_getD content rest j hjlt,
        take_getD_snoc content j hjlt []] at hstep
      rw [parseLoop_succ_step pm ("```".data :: content ++ "```".data :: rest) f
        (j + 1) ⟨true, content.take j, il⟩ acc _
        (by rw [fence_length content rest]; omega) hstep]
      have hih := ih (j + 1) (by omega) f (by omega) acc
      have hsub : f + 1 - (d + 1 + 1) = f - (d + 1) := by omega
      rw [hsub]
      exact hih

/-- Claim C7 fails as stated: the table check precedes the code-fence check
and ignores the code flag, so two consecutive pipe-containing lines inside a
fence are consumed as a table, and the resulting code block is empty instead
of holding the fence content verbatim. -/
theorem C7_counterexample :
    parse_markdown_to_docx false "```\na|b\nc|d\n```".data =
      [Block.Blank, Block.Table [['a'], ['b']] [], Block.Blank, Block.CodeBlock []] := by
  decide

/-- Claim C7 (amended): the content lines between an opening and a closing
code fence are stored in the resulting `CodeBlock` verbatim — and never
passed through the inline formatter — provided no content line looks like a
fence and no two consecutive content lines both contain `|` (otherwise the
table check, which runs first and ignores the code flag, consumes them). -/
theorem C7_fence_verbatim (pm : Bool) (content rest : List (List Char)) (il : Bool)
    (acc : List Block) (fuel : Nat)
    (hfence : ∀ l ∈ content, ¬("```".data.isPrefixOf (pyStrip l) = true))
    (hpipes : ∀ k, k + 1 < content.length →
      ¬((content.getD k []).contains '|' = true ∧
        (content.getD (k + 1) []).contains '|' = true))
    (hfuel : content.length + 2 ≤ fuel) :
    parseLoop pm ("```".data :: content ++ "```".data :: rest) fuel 0
        ⟨false, [], il⟩ acc =
      parseLoop pm ("```".data :: content ++ "```".data :: rest)
        (fuel - (content.length + 2)) (content.length + 2) ⟨false, [], il⟩
        (acc ++ [Block.CodeBlock content]) := by
  cases fuel with
  | zero => omega
  | succ f =>
    have h00 : ("```".data :: content ++ "```".data :: rest).getD 0 [] = "```".data := rfl
    have hcond0 : ¬((("```".data :: content ++ "```".data :: rest).getD 0 []).contains '|'
        = true ∧ 0 + 1 < ("```".data :: content ++ "```".data :: rest).length ∧
        (("```".data :: content ++ "```".data :: rest).getD (0 + 1) []).contains '|'
          = true) := by
      rintro ⟨hA, -, -⟩
      rw [h00] at hA
      exact absurd hA (by decide)
    have hf0 : "```".data.isPrefixOf (pyStrip
        (("```".data :: content ++ "```".data :: rest).getD 0 [])) = true := by
      rw [h00]
      decide
    have hstep := parseStep_open_fence pm ("```".data :: content ++ "```".data :: rest) 0
      ⟨false, [], il⟩ acc rfl hcond0 hf0
    rw [parseLoop_succ_step pm ("```".data :: content ++ "```".data :: rest) f 0
      ⟨false, [], il⟩ acc _ (by rw [fence_length content rest]; omega) hstep]
    have hih := parseLoop_in_code pm content rest il hfence hpipes content.length 0
      (by omega) f (by omega) acc
    have hsub : f + 1 - (content.length + 2) = f - (content.length + 1) := by omega
    rw [hsub]
    exact hih

/-- Witness for claim C7 (amended): a one-line fence followed by a trailing
line, with fuel 4. -/
theorem C7_witness :
    parseLoop false ("```".data :: ["ab".data] ++ "```".data :: ["tail".data]) 4 0
        ⟨false, [], false⟩ [] =
      parseLoop false ("```".data :: ["ab".data] ++ "```".data :: ["tail".data])
        (4 - 3) 3 ⟨false, [], false⟩ ([] ++ [Block.CodeBlock ["ab".data]]) :=
  C7_fence_verbatim false ["ab".data] ["tail".data] false [] 4 (by decide)
    (by intro k hk; simp at hk) (by decide)

end MdToWord
